import Mathlib

/-!
# Verification of SmartWealthSimple frontend logic

Shallow embedding of the pure logic of the SmartWealthSimple React/TypeScript
frontend, together with proofs of its specified properties.

Modelling conventions:
* JavaScript numbers that originate from JSON payloads are modelled as `ℚ`
  (JSON numerals are finite decimals; no `NaN`/`Infinity` can arrive from a
  parsed body).  The compounding calculator, which uses `Math.pow` with a
  fractional exponent, is modelled over `ℝ` with `Real.rpow`.
* JavaScript strings are Lean `String`s; `localeCompare` is modelled as the
  three-way comparison of the standard linear order on `String`, and
  `toLowerCase` as `String.toLower`.
* `Array.prototype.sort` (a stable comparison sort in all modern engines) is
  modelled by `List.mergeSort` with the boolean relation "comparator ≤ 0".
* React `useState` cells are gathered into explicit state records; an event
  handler becomes a function from the state (and, for effectful handlers, an
  environment outcome describing what the network did) to the new state.
-/

namespace SmartWealth

/-! ## Data model (SectorCompanySelector.tsx) -/

/-- The `interface Company` of `SectorCompanySelector.tsx`. -/
structure Company where
  ticker : String
  name : String
  current_price : ℚ
  price_change_pct : ℚ
  market_cap : ℚ
  pe_ratio : ℚ
  sector : String
  industry : String
  volume : ℚ
  avg_volume : ℚ
deriving DecidableEq

/-- The `interface SectorData` of `SectorCompanySelector.tsx`. -/
structure SectorData where
  name : String
  description : String
  growth_potential : String
  risk_level : String
  subsector_count : ℚ
  key_drivers : List String
deriving DecidableEq

/-- The `type SortField` of `SectorCompanySelector.tsx`. -/
inductive SortField where
  | ticker | name | current_price | price_change_pct | market_cap | pe_ratio | volume
deriving DecidableEq

/-- The `type SortDirection` of `SectorCompanySelector.tsx`. -/
inductive SortDirection where
  | asc | desc
deriving DecidableEq

/-- The value `a[field]` read by the comparator: a string or a number. -/
inductive FieldVal where
  | str (s : String)
  | num (q : ℚ)
deriving DecidableEq

/-- Field access `a[field]` for a `Company`. -/
def Company.getField (a : Company) : SortField → FieldVal
  | .ticker => .str a.ticker
  | .name => .str a.name
  | .current_price => .num a.current_price
  | .price_change_pct => .num a.price_change_pct
  | .market_cap => .num a.market_cap
  | .pe_ratio => .num a.pe_ratio
  | .volume => .num a.volume

/-- Model of `x.localeCompare(y)`: three-way comparison on strings. -/
def localeCompare (x y : String) : Int :=
  if x < y then -1 else if x = y then 0 else 1

/-- The comparator passed to `sort` in `sortCompanies`, as the number it
returns: string values are lowercased first; numeric fields compare by
`a - b` (asc) or `b - a` (desc); string fields by `localeCompare`. -/
def comparator (field : SortField) (direction : SortDirection) (a b : Company) : ℚ :=
  match a.getField field, b.getField field with
  | .str sa, .str sb =>
      let la := sa.toLower
      let lb := sb.toLower
      (if direction = .asc then localeCompare la lb else localeCompare lb la : Int)
  | .num qa, .num qb =>
      if direction = .asc then qa - qb else qb - qa
  | _, _ => 0

/-- The boolean "comparator result ≤ 0" that drives the (stable) sort. -/
def sortLE (field : SortField) (direction : SortDirection) (a b : Company) : Bool :=
  comparator field direction a b ≤ 0

/-- The `sortCompanies` of `SectorCompanySelector.tsx`: returns a new, sorted
array (`[...companies].sort(...)`), leaving its input untouched. -/
def sortCompanies (companies : List Company) (field : SortField)
    (direction : SortDirection) : List Company :=
  companies.mergeSort (sortLE field direction)

/-! ## StockScoring ticker list (`part_004`, first component) -/

/-- Model of `String.prototype.trim`: strip leading and trailing
whitespace. -/
def jsTrim (s : String) : String :=
  ⟨((s.data.dropWhile Char.isWhitespace).reverse.dropWhile Char.isWhitespace).reverse⟩

/-- Model of `String.prototype.toUpperCase` (ASCII, which covers ticker
symbols). -/
def jsToUpper (s : String) : String := ⟨s.data.map Char.toUpper⟩

/-- The `addTicker` of `StockScoring`: trim and uppercase the input, insert it
only if non-empty and not already present. -/
def addTicker (inputTicker : String) (selectedTickers : List String) : List String :=
  let ticker := jsToUpper (jsTrim inputTicker)
  if ticker ≠ "" ∧ ticker ∉ selectedTickers then
    selectedTickers ++ [ticker]
  else
    selectedTickers

/-- The `removeTicker` of `StockScoring`: `filter(t => t !== ticker)`. -/
def removeTicker (ticker : String) (selectedTickers : List String) : List String :=
  selectedTickers.filter (fun t => t ≠ ticker)

/-- The initial `selectedTickers` state of `StockScoring`. -/
def scoringInitialTickers : List String := ["NVDA", "AAPL", "MSFT"]

/-- The `selectedTickers` states reachable from the initial state through
`addTicker` / `removeTicker`. -/
inductive TickersReachable : List String → Prop where
  | init : TickersReachable scoringInitialTickers
  | add (l : List String) (input : String) :
      TickersReachable l → TickersReachable (addTicker input l)
  | remove (l : List String) (t : String) :
      TickersReachable l → TickersReachable (removeTicker t l)

/-! ## ETF comparison selection (`part_005`, `ETFCompare`) -/

/-- The `toggle` of `ETFCompare`: a selected ticker is removed; otherwise the
ticker is appended, dropping the oldest selection when 6 are already there. -/
def toggle (prev : List String) (t : String) : List String :=
  if t ∈ prev then
    prev.filter (fun x => x ≠ t)
  else if 6 ≤ prev.length then
    prev.drop 1 ++ [t]
  else
    prev ++ [t]

/-- The initial `selected` state of `ETFCompare`. -/
def etfInitialSelected : List String := ["QQQ", "SPY", "VTI", "SMH"]

/-- The `selected` states reachable from the initial state through `toggle`. -/
inductive ETFReachable : List String → Prop where
  | init : ETFReachable etfInitialSelected
  | step (l : List String) (t : String) :
      ETFReachable l → ETFReachable (toggle l t)

/-! ## SectorCompanySelector state machine -/

/-- The two wizard steps of `SectorCompanySelector`. -/
inductive Step where
  | sectors | companies
deriving DecidableEq

/-- The `useState` cells of `SectorCompanySelector`. -/
structure SelectorState where
  sectors : List SectorData
  selectedSectors : List String
  companies : List Company
  loading : Bool
  error : Option String
  currentStep : Step
  sortField : SortField
  sortDirection : SortDirection
deriving DecidableEq

/-- The `handleSort`: toggle the direction, record the field, and re-sort the
current companies list. -/
def handleSort (st : SelectorState) (field : SortField) : SelectorState :=
  let newDirection : SortDirection :=
    if st.sortField = field ∧ st.sortDirection = .desc then .asc else .desc
  { st with
    sortField := field
    sortDirection := newDirection
    companies := sortCompanies st.companies field newDirection }

/-- Whether the `Next: Get Companies` button is in the rendered tree: the
button sits inside the `currentStep === 'sectors'` block, behind the
`selectedSectors.length > 0 && ...` guard. -/
def nextButtonRendered (st : SelectorState) : Bool :=
  st.currentStep = Step.sectors ∧ st.selectedSectors.length > 0

/-! ## NDJSON streaming consumer (`fetchCompanies` reader loop)

Decoded chunks are modelled as `List Char`.  The external `JSON.parse` plus
the `data.status` dispatch is abstracted into a `parse` function classifying
the payload of a `data: ` line. -/

/-- Classification of one parsed streaming line. -/
inductive StreamMsg where
  | started
  | progress (c : Company)
  | completed
  | error (e : String)
  | other
deriving DecidableEq

/-- The mutable locals plus React state touched by the reader loop. -/
structure StreamState where
  buffer : List Char
  companies : List Company
  loading : Bool
  error : Option String
  stopped : Bool
deriving DecidableEq

/-- The network-visible part of a `StreamState` (the `buffer` is a local
variable of `fetchCompanies`, invisible to the rendered component). -/
def StreamState.obs (st : StreamState) : List Company × Bool × Option String × Bool :=
  (st.companies, st.loading, st.error, st.stopped)

/-- The tag prepended to every payload line of the NDJSON stream. -/
def dataTag : List Char := 'd' :: 'a' :: 't' :: 'a' :: ':' :: ' ' :: []

/-- The `line.trim()` is truthy iff some character is not whitespace. -/
def trimTruthy (line : List Char) : Bool :=
  line.any (fun c => ¬ c.isWhitespace)

/-- The body of the `for (const line of lines)` loop: process one complete
line.  After `completed` / `error` the code has returned, so a stopped state
is left untouched. -/
def processLine (parse : List Char → Option StreamMsg) (st : StreamState)
    (line : List Char) : StreamState :=
  if st.stopped then st
  else if trimTruthy line ∧ dataTag.isPrefixOf line then
    match parse (line.drop 6) with
    | some .started => st
    | some (.progress c) => { st with companies := st.companies ++ [c] }
    | some .completed => { st with loading := false, stopped := true }
    | some (.error e) => { st with error := some e, loading := false, stopped := true }
    | some .other => st
    | none => st
  else st

/-- Process a list of complete lines in order. -/
def processLines (parse : List Char → Option StreamMsg) (st : StreamState)
    (lines : List (List Char)) : StreamState :=
  lines.foldl (processLine parse) st

/-- Prepend a character to the first segment of a split. -/
def consHead (c : Char) : List (List Char) → List (List Char)
  | [] => [[c]]
  | l :: ls => (c :: l) :: ls

/-- The `buffer.split('\n')`: split a character list at newlines, keeping empty
segments; always returns at least one segment. -/
def splitNL : List Char → List (List Char)
  | [] => [[]]
  | c :: cs => if c = '\n' then [] :: splitNL cs else consHead c (splitNL cs)

/-- One iteration of the `while (true)` read loop on a freshly decoded
chunk: append to the buffer, split on newlines, keep the trailing segment as
the new buffer, and process the complete lines. -/
def processChunk (parse : List Char → Option StreamMsg) (st : StreamState)
    (chunk : List Char) : StreamState :=
  if st.stopped then st
  else
    let lines := splitNL (st.buffer ++ chunk)
    processLines parse { st with buffer := lines.getLastD [] } lines.dropLast

/-- The whole read loop over a sequence of received chunks. -/
def processChunks (parse : List Char → Option StreamMsg) (st : StreamState)
    (chunks : List (List Char)) : StreamState :=
  chunks.foldl (processChunk parse) st

/-- The stream state at entry of the read loop (`buffer = ''`; companies were
cleared, `loading` set, `error` cleared just before). -/
def initialStreamState : StreamState :=
  { buffer := [], companies := [], loading := true, error := none, stopped := false }

/-- The companies carried by `progress` lines, in arrival order, up to the
first `completed`/`error` line (after which reading stops). -/
def collectCompanies (parse : List Char → Option StreamMsg) :
    List (List Char) → List Company
  | [] => []
  | line :: rest =>
    if trimTruthy line ∧ dataTag.isPrefixOf line then
      match parse (line.drop 6) with
      | some (.progress c) => c :: collectCompanies parse rest
      | some .completed => []
      | some (.error _) => []
      | _ => collectCompanies parse rest
    else collectCompanies parse rest

/-! ## `fetchSectors` and `fetchCompanies` as environment-indexed transitions -/

/-- What the network did during `fetchSectors`. -/
inductive SectorsOutcome where
  | fetchThrows
  | notOk
  | okInvalid
  | okValid (sectors : List SectorData)

/-- The `fetchSectors`: on success store the sectors; every failure branch sets a
user-facing error string. -/
def fetchSectors (st : SelectorState) : SectorsOutcome → SelectorState
  | .okValid ss => { st with sectors := ss }
  | .okInvalid => { st with error := some "Invalid sectors data format" }
  | .notOk => { st with error := some "Failed to fetch sectors" }
  | .fetchThrows => { st with error := some "Failed to fetch sectors" }

/-- The non-streaming fallback request issued after a streaming error. -/
inductive FallbackOutcome where
  | ok (body : Option (List Company))
  | notOk
  | throws

/-- What the network did during `fetchCompanies` (after a request started). -/
inductive CompaniesOutcome where
  | fetchThrows
  | httpError (errField : Option String)
  | httpErrorJsonThrows
  | stream (chunks : List (List Char))
  | streamThrows (chunksBefore : List (List Char)) (fallback : FallbackOutcome)
  | noReader (body : Option (List Company))

/-- The try-block of `fetchCompanies` evaluated on an outcome, starting from
the state after `setLoading(true); setError(null); setCurrentStep('companies');
setCompanies([])`.  The original `sortField`/`sortDirection` are used by the
fallback paths. -/
def companiesTryBody (parse : List Char → Option StreamMsg) (st1 : SelectorState)
    (field : SortField) (direction : SortDirection) :
    CompaniesOutcome → SelectorState
  | .fetchThrows => { st1 with error := some "Failed to fetch companies" }
  | .httpError errField =>
      { st1 with error := some (errField.getD "Failed to fetch companies"),
                 loading := false }
  | .httpErrorJsonThrows => { st1 with error := some "Failed to fetch companies" }
  | .stream chunks =>
      let ss := processChunks parse
        { initialStreamState with companies := st1.companies } chunks
      { st1 with companies := ss.companies, loading := ss.loading, error := ss.error }
  | .streamThrows chunksBefore fallback =>
      let ss := processChunks parse
        { initialStreamState with companies := st1.companies } chunksBefore
      let stE : SelectorState :=
        { st1 with
          companies := ss.companies
          loading := ss.loading
          error := some "Streaming failed, falling back to regular request" }
      match fallback with
      | .ok (some cs) => { stE with companies := sortCompanies cs field direction }
      | .ok none => stE
      | .notOk => { stE with error := some "Failed to fetch companies" }
      | .throws => { stE with error := some "Failed to fetch companies" }
  | .noReader (some cs) => { st1 with companies := sortCompanies cs field direction }
  | .noReader none => { st1 with error := some "Invalid response format from server" }

/-- The `fetchCompanies`: empty selection short-circuits before the try block
(no request, no `finally`); otherwise the try body runs and the `finally`
clause forces `loading := false`.  The second component records whether a
request was started. -/
def fetchCompanies (parse : List Char → Option StreamMsg) (st : SelectorState)
    (outcome : CompaniesOutcome) : SelectorState × Bool :=
  if st.selectedSectors.length = 0 then
    ({ st with error := some "Please select at least one sector" }, false)
  else
    let st1 := { st with loading := true, error := none,
                         currentStep := Step.companies, companies := [] }
    let st2 := companiesTryBody parse st1 st.sortField st.sortDirection outcome
    ({ st2 with loading := false }, true)

/-- The `handleNextStep`: fetch only from the sectors step with a non-empty
selection. -/
def handleNextStep (parse : List Char → Option StreamMsg) (st : SelectorState)
    (outcome : CompaniesOutcome) : SelectorState × Bool :=
  if st.currentStep = Step.sectors ∧ st.selectedSectors.length > 0 then
    fetchCompanies parse st outcome
  else
    (st, false)

/-! ## Earnings calendar date arithmetic (`EarningsCalendar.tsx`)

Calendar dates are modelled as integers counting days from a fixed epoch
chosen so that day `0` is a Sunday; thus `d % 7 = 0` means Sunday and
`d % 7 = 6` means Saturday, and `date-fns`'s day arithmetic with
`weekStartsOn: 0` becomes plain integer arithmetic.  A displayed month is the
inclusive day interval from its first day to its last day. -/

/-- The `startOfWeek(d, { weekStartsOn: 0 })`: the Sunday on or before `d`. -/
def startOfWeek (d : ℤ) : ℤ := d - d % 7

/-- The `endOfWeek(d, { weekStartsOn: 0 })`: the Saturday on or after `d`. -/
def endOfWeek (d : ℤ) : ℤ := d + (6 - d % 7)

/-- The `days` array of `EarningsCalendar`: every date from
`startOfWeek(startOfMonth(current))` to `endOfWeek(endOfMonth(current))`,
one day at a time, for the month spanning days `first..last`. -/
def calendarDays (first last : ℤ) : List ℤ :=
  (List.range (endOfWeek last - startOfWeek first + 1).toNat).map
    (fun i : ℕ => startOfWeek first + (i : ℤ))

/-! ## Compounding lab (`part_005`, `simulateSeries`)

Inputs are modelled over `ℝ`; `clampNum(x, fb)` replaces a non-finite number
by the fallback and in this idealisation (where every real is finite) is the
identity, so it is inlined away. -/

/-- The `Math.pow(1 + cagrPct/100, 1/12) - 1`: the equivalent monthly rate. -/
noncomputable def monthlyRate (cagrPct : ℝ) : ℝ :=
  (1 + cagrPct / 100) ^ ((1 : ℝ) / 12) - 1

/-- The `Math.max(1, Math.floor(years * 12))`: number of simulated months. -/
noncomputable def simMonths (years : ℝ) : ℕ := (max 1 ⌊years * 12⌋).toNat

/-- The loop-carried variables of `simulateSeries`. -/
structure SimState where
  value : ℝ
  contrib : ℝ
  m : ℝ

/-- The body of the `for` loop at iteration `i ≥ 1`: grow the value by one
month and add the monthly contribution; after every 12th month bump the
monthly contribution by the factor `bumpF = 1 + contribBump/100`. -/
noncomputable def simStep (r bumpF : ℝ) (s : SimState) (i : ℕ) : SimState :=
  { value := s.value * (1 + r) + s.m
    contrib := s.contrib + s.m
    m := if i % 12 = 0 then s.m * bumpF else s.m }

/-- The loop state after `i` iterations, starting from `init` at `i = 0`. -/
noncomputable def simRun (r bumpF : ℝ) (init : SimState) : ℕ → SimState
  | 0 => init
  | i + 1 => simStep r bumpF (simRun r bumpF init i) (i + 1)

/-- The record returned by `simulateSeries`. -/
structure SimResult where
  data : List (ℕ × ℝ × ℝ)
  final : ℝ
  invested : ℝ
  growth : ℝ

/-- The initial loop state of `simulateSeries`:
`value = contrib = initial`, `m = monthly`. -/
def simInit (initial monthly : ℝ) : SimState :=
  { value := initial, contrib := initial, m := monthly }

/-- The `simulateSeries(years, cagrPct, initial, monthly, contribBump)` of the
compounding lab. -/
noncomputable def simulateSeries (years cagrPct initial monthly contribBump : ℝ) :
    SimResult :=
  let months := simMonths years
  let r := monthlyRate cagrPct
  let bumpF := 1 + contribBump / 100
  let stAt := fun i => simRun r bumpF (simInit initial monthly) i
  { data := (List.range (months + 1)).map (fun i => (i, (stAt i).value, (stAt i).contrib))
    final := (stAt months).value
    invested := (stAt months).contrib
    growth := (stAt months).value - (stAt months).contrib }

/-- The contribution added during month `j` (`1 ≤ j`): the base monthly
amount, bumped once for every completed block of 12 months. -/
noncomputable def contribOfMonth (monthly contribBump : ℝ) (j : ℕ) : ℝ :=
  monthly * (1 + contribBump / 100) ^ ((j - 1) / 12)

/-! ## Stock scoring display (`part_004`) -/

/-- The `interface StockScore` / `interface ScoringResult`: the DTO parsed from
`POST /api/score-stocks`.  `details` is an opaque JSON blob. -/
structure StockScore where
  ticker : String
  name : String
  sector : String
  industry : String
  marketCap : ℚ
  totalScore : ℚ
  grade : String
  scores : List (String × ℚ)
  details : String
  weights : List (String × ℚ)
deriving DecidableEq

/-- The `useState` cells of the first `StockScoring` component that the
scoring request touches. -/
structure ScoringState where
  results : List StockScore
  loading : Bool
  error : String
deriving DecidableEq

/-- What the network did during `scoreStocks` / `handleScoreStocks`. -/
inductive ScoreOutcome where
  | ok (data : List StockScore)
  | httpError (errField : Option String)
  | throwsMsg (msg : Option String)

/-- The `scoreStocks` of the first `StockScoring` component: on success the
parsed body is stored verbatim in `results`; no aggregation recomputes
`totalScore`, `grade`, `scores` or `weights`. -/
def scoreStocks (st : ScoringState) (tickers : List String)
    (outcome : ScoreOutcome) : ScoringState :=
  if tickers.length = 0 then st
  else
    let base := { st with loading := true, error := "" }
    match outcome with
    | .ok data => { base with results := data, loading := false }
    | .httpError errField =>
        { base with error := errField.getD "Failed to score stocks", loading := false }
    | .throwsMsg msg =>
        { base with error := msg.getD "An error occurred", loading := false }

/-- The `useState` cells of the second scoring component
(`const StockScoring: React.FC`) that the scoring request touches. -/
structure ScoringState2 where
  scoringResults : List StockScore
  loading : Bool
  error : Option String
  showResults : Bool
deriving DecidableEq

/-- The `handleScoreStocks` of the second scoring component: on success the
parsed body is stored verbatim in `scoringResults`. -/
def handleScoreStocks (st : ScoringState2) (tickers : List String)
    (outcome : ScoreOutcome) : ScoringState2 :=
  if tickers.length = 0 then
    { st with error := some "Please select at least one stock to score" }
  else
    let base := { st with loading := true, error := none }
    match outcome with
    | .ok results =>
        { base with scoringResults := results, showResults := true, loading := false }
    | .httpError errField =>
        { base with error := some (errField.getD "Failed to score stocks"),
                    loading := false }
    | .throwsMsg msg =>
        { base with error := some (msg.getD "Failed to score stocks"),
                    loading := false }

/-- The values the score badge renders for one stored record:
`stock.grade` and `stock.totalScore`, read directly off the record. -/
def renderedBadge (s : StockScore) : String × ℚ := (s.grade, s.totalScore)

/-- The per-criterion rows rendered in the detailed breakdown: each entry of
`stock.scores` paired with `stock.weights[criteria] || 0`, read directly off
the record. -/
def renderedBreakdown (s : StockScore) : List (String × ℚ × ℚ) :=
  s.scores.map (fun p => (p.1, p.2, ((s.weights.lookup p.1).getD 0)))

/-! ## Auxiliary specification-level definitions -/

/-- The order the comparator of `sortCompanies` realises on a pair of
companies: numeric fields compare numerically in the chosen direction;
the string fields `ticker` and `name` compare their lowercased values. -/
def keyLE (field : SortField) (direction : SortDirection) (a b : Company) : Prop :=
  match a.getField field, b.getField field with
  | .str sa, .str sb =>
      if direction = .asc then sa.toLower ≤ sb.toLower else sb.toLower ≤ sa.toLower
  | .num qa, .num qb =>
      if direction = .asc then qa ≤ qb else qb ≤ qa
  | _, _ => True

/-- The `fetchSectors` outcomes that are failures (thrown exception, non-OK
response, malformed response shape). -/
def SectorsOutcome.failed : SectorsOutcome → Bool
  | .okValid _ => false
  | _ => true

/-- The `fetchCompanies` outcomes that are failures (thrown exception,
non-OK response, malformed response shape, streaming error). -/
def CompaniesOutcome.failed : CompaniesOutcome → Bool
  | .fetchThrows => true
  | .httpError _ => true
  | .httpErrorJsonThrows => true
  | .stream _ => false
  | .streamThrows _ _ => true
  | .noReader body => body.isNone

/-- A concrete selector state with an empty sector selection, used to
exercise the guards. -/
def emptySelState : SelectorState :=
  { sectors := [], selectedSectors := [], companies := [], loading := false,
    error := none, currentStep := Step.sectors, sortField := SortField.market_cap,
    sortDirection := SortDirection.desc }

/-- A concrete selector state with one selected sector, used to exercise the
fetch paths. -/
def oneSelState : SelectorState :=
  { emptySelState with selectedSectors := ["Technology"] }

/-- A sample company record used to exercise the stream consumer. -/
def sampleCompany : Company :=
  { ticker := "NVDA", name := "NVIDIA", current_price := 100,
    price_change_pct := 1, market_cap := 1000, pe_ratio := 30,
    sector := "Technology", industry := "Semiconductors", volume := 10,
    avg_volume := 10 }

/-- A sample line parser exercising the stream consumer: payload `1` is a
progress record, payload `2` completes the stream. -/
def wParse : List Char → Option StreamMsg
  | ['1'] => some (.progress sampleCompany)
  | ['2'] => some .completed
  | _ => none

/-! ## Theorems -/

/-- C10: every reachable ETF selection has at most 6 tickers and no
duplicates; toggling a selected ticker removes it, toggling a new ticker
below the cap appends it, and toggling a new ticker at the cap drops the
oldest selection and appends the new one, keeping the size at 6. -/
theorem etf_selection_invariant :
    (∀ l, ETFReachable l → l.length ≤ 6 ∧ l.Nodup) ∧
    (∀ (l : List String) (t : String), t ∈ l →
      toggle l t = l.filter (fun x => x ≠ t)) ∧
    (∀ (l : List String) (t : String), t ∉ l → l.length < 6 →
      toggle l t = l ++ [t]) ∧
    (∀ (l : List String) (t : String), t ∉ l → l.length = 6 →
      toggle l t = l.drop 1 ++ [t] ∧ (toggle l t).length = 6) := by
  have hmem : ∀ (l : List String) (t : String), t ∈ l →
      toggle l t = l.filter (fun x => x ≠ t) := by
    intro l t h
    simp [toggle, h]
  have hnew : ∀ (l : List String) (t : String), t ∉ l → l.length < 6 →
      toggle l t = l ++ [t] := by
    intro l t h hlen
    simp [toggle, h]
    omega
  have hfull : ∀ (l : List String) (t : String), t ∉ l → 6 ≤ l.length →
      toggle l t = l.drop 1 ++ [t] := by
    intro l t h hlen
    simp [toggle, h, hlen]
  refine ⟨?_, hmem, hnew, ?_⟩
  · intro l h
    induction h with
    | init => exact ⟨by decide, by decide⟩
    | step l t _ ih =>
      by_cases ht : t ∈ l
      · rw [hmem l t ht]
        refine ⟨le_trans (List.length_filter_le _ _) ih.1, ih.2.filter _⟩
      · by_cases hlen : l.length < 6
        · rw [hnew l t ht hlen]
          refine ⟨by simp; omega, ?_⟩
          simp [List.nodup_append, ih.2, ht]
        · rw [hfull l t ht (by omega)]
          constructor
          · simp
            omega
          · have hd : (l.drop 1).Nodup := ih.2.sublist (List.drop_sublist 1 l)
            have htd : t ∉ l.drop 1 := fun hc => ht (List.mem_of_mem_drop hc)
            rw [List.drop_one] at hd htd
            simp [List.nodup_append, hd, htd]
  · intro l t ht hlen
    refine ⟨hfull l t ht (by omega), ?_⟩
    rw [hfull l t ht (by omega)]
    simp
    omega

/-- C10 witness: toggling a fresh ticker into a full six-element selection
drops the oldest and keeps the size at 6. -/
theorem etf_selection_invariant_witness :
    ("G" ∉ (["A", "B", "C", "D", "E", "F"] : List String) ∧
      (["A", "B", "C", "D", "E", "F"] : List String).length = 6) ∧
    (toggle ["A", "B", "C", "D", "E", "F"] "G" =
        (["A", "B", "C", "D", "E", "F"] : List String).drop 1 ++ ["G"] ∧
      (toggle ["A", "B", "C", "D", "E", "F"] "G").length = 6) :=
  ⟨⟨by decide, by decide⟩,
    etf_selection_invariant.2.2.2 ["A", "B", "C", "D", "E", "F"] "G"
      (by decide) (by decide)⟩

/-- C9: every `selectedTickers` state of `StockScoring` reachable from
`['NVDA', 'AAPL', 'MSFT']` is duplicate-free; `addTicker` trims and
uppercases the input and inserts it only when non-empty and fresh, and
`removeTicker` removes every occurrence of the ticker while preserving the
order (and multiplicities) of the rest. -/
theorem scoring_tickers_invariant :
    (∀ l, TickersReachable l → l.Nodup) ∧
    (∀ (input : String) (l : List String),
      (jsToUpper (jsTrim input) ≠ "" ∧ jsToUpper (jsTrim input) ∉ l →
        addTicker input l = l ++ [jsToUpper (jsTrim input)]) ∧
      (jsToUpper (jsTrim input) = "" ∨ jsToUpper (jsTrim input) ∈ l →
        addTicker input l = l)) ∧
    (∀ (t : String) (l : List String),
      t ∉ removeTicker t l ∧
      (∀ s, s ≠ t → (removeTicker t l).count s = l.count s) ∧
      (removeTicker t l).Sublist l) := by
  have hadd : ∀ (input : String) (l : List String),
      (jsToUpper (jsTrim input) ≠ "" ∧ jsToUpper (jsTrim input) ∉ l →
        addTicker input l = l ++ [jsToUpper (jsTrim input)]) ∧
      (jsToUpper (jsTrim input) = "" ∨ jsToUpper (jsTrim input) ∈ l →
        addTicker input l = l) := by
    intro input l
    constructor
    · intro h
      simp [addTicker, h.1, h.2]
    · intro h
      rcases h with h | h
      · simp [addTicker, h]
      · simp [addTicker, h]
  refine ⟨?_, hadd, ?_⟩
  · intro l h
    induction h with
    | init => decide
    | add l input _ ih =>
      by_cases h : jsToUpper (jsTrim input) ≠ "" ∧ jsToUpper (jsTrim input) ∉ l
      · rw [(hadd input l).1 h]
        simp [List.nodup_append, ih, h.2]
      · rcases Decidable.not_and_iff_or_not.mp h with h | h
        · rw [(hadd input l).2 (Or.inl (by simpa using h))]
          exact ih
        · rw [(hadd input l).2 (Or.inr (by simpa using h))]
          exact ih
    | remove l t _ ih => exact ih.filter _
  · intro t l
    refine ⟨?_, ?_, List.filter_sublist l⟩
    · simp [removeTicker]
    · intro s hs
      simp [removeTicker, List.count_filter, hs]

/-- C9 witness: adding a padded lowercase ticker inserts its trimmed
uppercase form, and the resulting state is duplicate-free. -/
theorem scoring_tickers_invariant_witness :
    ((jsToUpper (jsTrim " tsla ") ≠ "" ∧ jsToUpper (jsTrim " tsla ") ∉ scoringInitialTickers) ∧
      addTicker " tsla " scoringInitialTickers =
        scoringInitialTickers ++ [jsToUpper (jsTrim " tsla ")]) ∧
    (addTicker " tsla " scoringInitialTickers).Nodup :=
  ⟨⟨⟨by decide, by decide⟩,
      (scoring_tickers_invariant.2.1 " tsla " scoringInitialTickers).1
        ⟨by decide, by decide⟩⟩,
    scoring_tickers_invariant.1 _
      (TickersReachable.add _ " tsla " TickersReachable.init)⟩

/-- C5: on every successful `POST /api/score-stocks` response, both scoring
components store the parsed `StockScore` records verbatim, and the rendered
badge (`totalScore`, `grade`) and per-criterion breakdown (`scores` entries
with their `weights`) are projections of exactly those parsed records — no
client-side aggregation recomputes them. -/
theorem scoring_renders_precomputed :
    ∀ (st : ScoringState) (st2 : ScoringState2) (tickers : List String)
      (data : List StockScore), tickers.length ≠ 0 →
      (scoreStocks st tickers (.ok data)).results = data ∧
      (handleScoreStocks st2 tickers (.ok data)).scoringResults = data ∧
      (scoreStocks st tickers (.ok data)).results.map renderedBadge =
        data.map renderedBadge ∧
      (scoreStocks st tickers (.ok data)).results.map renderedBreakdown =
        data.map renderedBreakdown := by
  intro st st2 tickers data h
  refine ⟨?_, ?_, ?_, ?_⟩ <;> simp [scoreStocks, handleScoreStocks, h]

/-- C5 witness: scoring one ticker stores the single parsed record. -/
theorem scoring_renders_precomputed_witness :
    (["NVDA"] : List String).length ≠ 0 ∧
    (scoreStocks ⟨[], false, ""⟩ ["NVDA"]
        (.ok [⟨"NVDA", "NVIDIA", "Tech", "Semis", 1, 91, "A", [("g", 1)], "{}",
          [("g", 1)]⟩])).results =
      [⟨"NVDA", "NVIDIA", "Tech", "Semis", 1, 91, "A", [("g", 1)], "{}", [("g", 1)]⟩] :=
  ⟨by decide,
    (scoring_renders_precomputed ⟨[], false, ""⟩ ⟨[], false, none, false⟩ ["NVDA"]
      [⟨"NVDA", "NVIDIA", "Tech", "Semis", 1, 91, "A", [("g", 1)], "{}", [("g", 1)]⟩]
      (by decide)).1⟩

/-- C6: `sortCompanies` is pure — the output is a permutation of the input
made of the identical `Company` records; the input list itself is a value
and is untouched. -/
theorem sortCompanies_permutation :
    ∀ (companies : List Company) (field : SortField) (direction : SortDirection),
      (sortCompanies companies field direction).Perm companies :=
  fun companies field direction => List.mergeSort_perm companies (sortLE field direction)

/-- C4: the `Next: Get Companies` button appears only with a non-empty
sector selection; `handleNextStep` starts a fetch exactly from the sectors
step with a non-empty selection; and `fetchCompanies` on an empty selection
sets the error message and returns at once, starting no request and leaving
`currentStep`, `companies` and `loading` unchanged. -/
theorem sector_selection_gates_fetch :
    (∀ st : SelectorState, nextButtonRendered st = true →
      st.selectedSectors.length > 0) ∧
    (∀ (parse : List Char → Option StreamMsg) (st : SelectorState)
        (o : CompaniesOutcome),
      (handleNextStep parse st o).2 = true ↔
        (st.currentStep = Step.sectors ∧ st.selectedSectors.length > 0)) ∧
    (∀ (parse : List Char → Option StreamMsg) (st : SelectorState)
        (o : CompaniesOutcome), st.selectedSectors = [] →
      fetchCompanies parse st o =
        ({ st with error := some "Please select at least one sector" }, false)) := by
  have hempty : ∀ (parse : List Char → Option StreamMsg) (st : SelectorState)
      (o : CompaniesOutcome), st.selectedSectors = [] →
      fetchCompanies parse st o =
        ({ st with error := some "Please select at least one sector" }, false) := by
    intro parse st o h
    simp [fetchCompanies, h]
  refine ⟨?_, ?_, hempty⟩
  · intro st h
    simp [nextButtonRendered] at h
    exact h.2
  · intro parse st o
    constructor
    · intro h
      by_contra hc
      rw [handleNextStep, if_neg hc] at h
      exact Bool.false_ne_true h
    · intro h
      have hne : st.selectedSectors.length ≠ 0 := by omega
      rw [handleNextStep, if_pos h, fetchCompanies, if_neg hne]

/-- C4 witness: with an empty selection, `fetchCompanies` sets the error and
changes nothing else, at a concrete state. -/
theorem sector_selection_gates_fetch_witness :
    (emptySelState.selectedSectors = [] ∧
      fetchCompanies (fun _ => none) emptySelState .fetchThrows =
        ({ emptySelState with error := some "Please select at least one sector" },
          false)) ∧
    ((fetchCompanies (fun _ => none) emptySelState .fetchThrows).1.currentStep =
        Step.sectors ∧
      (fetchCompanies (fun _ => none) emptySelState .fetchThrows).1.loading = false ∧
      (fetchCompanies (fun _ => none) emptySelState .fetchThrows).1.companies = []) := by
  have h := sector_selection_gates_fetch.2.2 (fun _ => none) emptySelState .fetchThrows rfl
  exact ⟨⟨rfl, h⟩, by rw [h]; exact ⟨rfl, rfl, rfl⟩⟩

/-- C7: every failing outcome of `fetchSectors` or `fetchCompanies` (thrown
exception, non-OK response, malformed shape, streaming error) leaves a
non-null user-facing error string, and once a request starts,
`fetchCompanies` always terminates with `loading = false` thanks to its
`finally` clause. -/
theorem fetch_errors_surfaced :
    (∀ (st : SelectorState) (o : SectorsOutcome), o.failed = true →
      (fetchSectors st o).error ≠ none) ∧
    (∀ (parse : List Char → Option StreamMsg) (st : SelectorState)
        (o : CompaniesOutcome), st.selectedSectors.length ≠ 0 →
      (fetchCompanies parse st o).1.loading = false) ∧
    (∀ (parse : List Char → Option StreamMsg) (st : SelectorState)
        (o : CompaniesOutcome), st.selectedSectors.length ≠ 0 → o.failed = true →
      (fetchCompanies parse st o).1.error ≠ none) ∧
    (∀ (parse : List Char → Option StreamMsg) (st : SelectorState)
        (o : CompaniesOutcome), st.loading = false →
      (fetchCompanies parse st o).1.loading = false) := by
  have hloadne : ∀ (parse : List Char → Option StreamMsg) (st : SelectorState)
      (o : CompaniesOutcome), st.selectedSectors.length ≠ 0 →
      (fetchCompanies parse st o).1.loading = false := by
    intro parse st o h
    rw [fetchCompanies, if_neg h]
  refine ⟨?_, hloadne, ?_, ?_⟩
  · intro st o h
    cases o <;> simp_all [fetchSectors, SectorsOutcome.failed]
  · intro parse st o h hf
    rw [fetchCompanies, if_neg h]
    cases o with
    | fetchThrows => simp [companiesTryBody]
    | httpError e => simp [companiesTryBody]
    | httpErrorJsonThrows => simp [companiesTryBody]
    | stream chunks => simp [CompaniesOutcome.failed] at hf
    | streamThrows cb fb =>
      cases fb with
      | ok body => cases body <;> simp [companiesTryBody]
      | notOk => simp [companiesTryBody]
      | throws => simp [companiesTryBody]
    | noReader body =>
      cases body with
      | none => simp [companiesTryBody]
      | some cs => simp [CompaniesOutcome.failed] at hf
  · intro parse st o h
    by_cases he : st.selectedSectors.length = 0
    · rw [fetchCompanies, if_pos he]
      exact h
    · exact hloadne parse st o he

/-- C7 witness: a thrown fetch with one selected sector ends with
`loading = false` and a non-null error. -/
theorem fetch_errors_surfaced_witness :
    (oneSelState.selectedSectors.length ≠ 0 ∧
      CompaniesOutcome.fetchThrows.failed = true) ∧
    (fetchCompanies (fun _ => none) oneSelState .fetchThrows).1.loading = false ∧
    (fetchCompanies (fun _ => none) oneSelState .fetchThrows).1.error ≠ none :=
  ⟨⟨by decide, rfl⟩,
    fetch_errors_surfaced.2.1 (fun _ => none) oneSelState .fetchThrows (by decide),
    fetch_errors_surfaced.2.2.1 (fun _ => none) oneSelState .fetchThrows (by decide) rfl⟩

/-- The `localeCompare x y ≤ 0` exactly when `x ≤ y`. -/
theorem localeCompare_nonpos (x y : String) : localeCompare x y ≤ 0 ↔ x ≤ y := by
  unfold localeCompare
  split_ifs with h1 h2
  · simp [le_of_lt h1]
  · simp [le_of_eq h2]
  · constructor
    · intro h
      omega
    · intro h
      exact absurd (lt_of_le_of_ne h h2) h1

/-- The boolean comparator relation agrees with `keyLE`. -/
theorem sortLE_iff (f : SortField) (d : SortDirection) (a b : Company) :
    sortLE f d a b = true ↔ keyLE f d a b := by
  cases f <;> cases d <;>
    simp [sortLE, comparator, keyLE, Company.getField, localeCompare_nonpos,
      sub_nonpos, Int.cast_nonpos]

/-- The comparator relation is transitive. -/
theorem sortLE_trans (f : SortField) (d : SortDirection) :
    ∀ a b c : Company, sortLE f d a b → sortLE f d b c → sortLE f d a c := by
  intro a b c hab hbc
  rw [sortLE_iff] at hab hbc ⊢
  cases f <;> cases d <;>
    simp [keyLE, Company.getField] at hab hbc ⊢ <;>
    first
    | exact le_trans hab hbc
    | exact le_trans hbc hab

/-- The comparator relation is total. -/
theorem sortLE_total (f : SortField) (d : SortDirection) :
    ∀ a b : Company, sortLE f d a b || sortLE f d b a := by
  intro a b
  simp only [Bool.or_eq_true, sortLE_iff]
  cases f <;> cases d <;>
    simp [keyLE, Company.getField] <;> exact le_total _ _

/-- The sorted list is pairwise ordered by `keyLE`. -/
theorem sortCompanies_pairwise (cs : List Company) (f : SortField)
    (d : SortDirection) : (sortCompanies cs f d).Pairwise (keyLE f d) :=
  (List.sorted_mergeSort (sortLE_trans f d) (sortLE_total f d) cs).imp
    (fun h => (sortLE_iff f d _ _).mp h)

/-- C2: `handleSort` flips to ascending exactly when the clicked field is
already active with descending direction, otherwise sets descending; the
companies list is re-sorted so that consecutive entries satisfy the chosen
direction on the clicked field, with the string fields `ticker` and `name`
compared on their lowercased values (`keyLE`). -/
theorem handleSort_toggles_and_sorts :
    (∀ (st : SelectorState) (f : SortField),
      st.sortField = f → st.sortDirection = .desc →
        (handleSort st f).sortDirection = .asc) ∧
    (∀ (st : SelectorState) (f : SortField),
      st.sortField ≠ f ∨ st.sortDirection = .asc →
        (handleSort st f).sortDirection = .desc) ∧
    (∀ (st : SelectorState) (f : SortField),
      (handleSort st f).sortField = f ∧
      (handleSort st f).companies =
        sortCompanies st.companies f (handleSort st f).sortDirection) ∧
    (∀ (cs : List Company) (f : SortField) (d : SortDirection),
      (sortCompanies cs f d).Pairwise (keyLE f d)) := by
  refine ⟨?_, ?_, ?_, fun cs f d => sortCompanies_pairwise cs f d⟩
  · intro st f h1 h2
    simp [handleSort, h1, h2]
  · intro st f h
    rcases h with h | h
    · simp [handleSort, h]
    · have hne : ¬(st.sortField = f ∧ st.sortDirection = .desc) := by
        rintro ⟨-, hd⟩
        rw [h] at hd
        exact SortDirection.noConfusion hd
      simp [handleSort, hne]
  · intro st f
    exact ⟨rfl, rfl⟩

/-- C2 witness: clicking the already-active descending field flips the
direction to ascending. -/
theorem handleSort_toggles_and_sorts_witness :
    (emptySelState.sortField = SortField.market_cap ∧
      emptySelState.sortDirection = SortDirection.desc) ∧
    (handleSort emptySelState SortField.market_cap).sortDirection =
      SortDirection.asc :=
  ⟨⟨rfl, rfl⟩,
    handleSort_toggles_and_sorts.1 emptySelState SortField.market_cap rfl rfl⟩

/-- C8: for a displayed month spanning days `first..last`, the `days` array
consists of the consecutive dates from the Sunday on or before `first` to
the Saturday on or after `last`; its length is a positive multiple of 7 and
it contains every day of the month exactly once. -/
theorem calendarDays_correct :
    ∀ first last : ℤ, first ≤ last →
      (calendarDays first last).head? = some (startOfWeek first) ∧
      (calendarDays first last).getLast? = some (endOfWeek last) ∧
      (∀ i : ℕ, i < (calendarDays first last).length →
        (calendarDays first last)[i]? = some (startOfWeek first + i)) ∧
      (startOfWeek first % 7 = 0 ∧ startOfWeek first ≤ first ∧
        first - startOfWeek first < 7) ∧
      (endOfWeek last % 7 = 6 ∧ last ≤ endOfWeek last ∧
        endOfWeek last - last < 7) ∧
      (0 < (calendarDays first last).length ∧
        (7 : ℕ) ∣ (calendarDays first last).length) ∧
      (∀ d : ℤ, first ≤ d → d ≤ last → (calendarDays first last).count d = 1) := by
  intro first last hfl
  have hlen : (calendarDays first last).length =
      (endOfWeek last - startOfWeek first + 1).toNat := by
    simp [calendarDays]
  have hget : ∀ i : ℕ, i < (calendarDays first last).length →
      (calendarDays first last)[i]? = some (startOfWeek first + i) := by
    intro i hi
    rw [hlen] at hi
    simp [calendarDays, List.getElem?_map, List.getElem?_range hi]
  have hpos : 0 < (calendarDays first last).length := by
    rw [hlen]
    unfold startOfWeek endOfWeek
    omega
  refine ⟨?_, ?_, hget, ?_, ?_, ⟨hpos, ?_⟩, ?_⟩
  · rw [List.head?_eq_getElem?, hget 0 hpos]
    simp
  · rw [List.getLast?_eq_getElem?,
      hget ((calendarDays first last).length - 1) (by omega)]
    have : (startOfWeek first +
        (((calendarDays first last).length - 1 : ℕ) : ℤ)) = endOfWeek last := by
      rw [hlen]
      unfold startOfWeek endOfWeek
      omega
    rw [this]
  · unfold startOfWeek
    omega
  · unfold endOfWeek
    omega
  · rw [hlen]
    unfold startOfWeek endOfWeek
    omega
  · intro d hd1 hd2
    have hnd : (calendarDays first last).Nodup := by
      refine List.Nodup.map ?_ (List.nodup_range _)
      intro i j h
      simp only at h
      omega
    have hmem : d ∈ calendarDays first last := by
      simp only [calendarDays, List.mem_map, List.mem_range]
      refine ⟨(d - startOfWeek first).toNat, ?_, ?_⟩
      · unfold startOfWeek endOfWeek
        omega
      · unfold startOfWeek
        omega
    exact List.count_eq_one_of_mem hnd hmem

/-- C8 witness: a month spanning days 3..33 yields a 35-day grid containing
day 10 exactly once. -/
theorem calendarDays_correct_witness :
    ((3 : ℤ) ≤ 33 ∧ (3 : ℤ) ≤ 10 ∧ (10 : ℤ) ≤ 33) ∧
    (calendarDays 3 33).count 10 = 1 :=
  ⟨⟨by decide, by decide, by decide⟩,
    (calendarDays_correct 3 33 (by decide)).2.2.2.2.2.2 10 (by decide) (by decide)⟩

/-! ### Stream consumer lemmas -/

/-- The `consHead` never produces the empty list. -/
theorem consHead_ne_nil (c : Char) (xs : List (List Char)) : consHead c xs ≠ [] := by
  cases xs <;> simp [consHead]

/-- The `splitNL` never produces the empty list. -/
theorem splitNL_ne_nil (s : List Char) : splitNL s ≠ [] := by
  cases s with
  | nil => simp [splitNL]
  | cons c cs =>
    rw [splitNL]
    split
    · simp
    · exact consHead_ne_nil c (splitNL cs)

/-- The `splitNL` always produces a cons. -/
theorem splitNL_shape (s : List Char) : ∃ l ls, splitNL s = l :: ls := by
  cases h : splitNL s with
  | nil => exact absurd h (splitNL_ne_nil s)
  | cons l ls => exact ⟨l, ls, rfl⟩

/-- A newline-free text splits into the single segment it is. -/
theorem splitNL_no_newline (s : List Char) (h : '\n' ∉ s) : splitNL s = [s] := by
  induction s with
  | nil => rfl
  | cons c cs ih =>
    have hc : c ≠ '\n' := fun hc => h (hc ▸ List.mem_cons_self c cs)
    have hcs : '\n' ∉ cs := fun hm => h (List.mem_cons_of_mem c hm)
    rw [splitNL, if_neg hc, ih hcs]
    rfl

/-- The trailing segment of a split never contains a newline. -/
theorem splitNL_getLastD_no_newline (s : List Char) :
    '\n' ∉ (splitNL s).getLastD [] := by
  induction s with
  | nil => simp [splitNL]
  | cons c cs ih =>
    obtain ⟨l, ls, hS⟩ := splitNL_shape cs
    by_cases hc : c = '\n'
    · rw [splitNL, if_pos hc, List.getLastD_cons]
      exact ih
    · rw [splitNL, if_neg hc, hS, consHead]
      cases ls with
      | nil =>
        rw [hS] at ih
        simp only [List.getLastD_cons, List.getLastD_nil] at ih ⊢
        intro hm
        rcases List.mem_cons.mp hm with h1 | h1
        · exact hc h1.symm
        · exact ih h1
      | cons l₂ ls₂ =>
        rw [hS] at ih
        simpa only [List.getLastD_cons] using ih

/-- How `splitNL` distributes over concatenation: all segments of the left
part but its last, then the split of the last left segment glued onto the
right part. -/
theorem splitNL_append (a b : List Char) :
    splitNL (a ++ b) =
      (splitNL a).dropLast ++ splitNL ((splitNL a).getLastD [] ++ b) := by
  induction a with
  | nil => simp [splitNL, List.getLastD]
  | cons c a ih =>
    obtain ⟨l, ls, hS⟩ := splitNL_shape a
    by_cases hc : c = '\n'
    · subst hc
      rw [List.cons_append, splitNL, if_pos rfl, splitNL, if_pos rfl, ih, hS]
      simp only [List.dropLast_cons₂, List.getLastD_cons, List.cons_append]
    · rw [List.cons_append, splitNL, if_neg hc, splitNL, if_neg hc, ih, hS]
      cases ls with
      | nil =>
        simp only [List.dropLast_single, List.getLastD_cons, List.getLastD_nil,
          List.nil_append, consHead]
        rw [List.cons_append, splitNL, if_neg hc]
        obtain ⟨m, ms, hM⟩ := splitNL_shape (l ++ b)
        rw [hM]
        rfl
      | cons l₂ ls₂ =>
        simp only [consHead, List.dropLast_cons₂, List.cons_append,
          List.getLastD_cons]

/-- The `processLine` leaves a stopped state untouched. -/
theorem processLine_stopped (p : List Char → Option StreamMsg) (st : StreamState)
    (line : List Char) (h : st.stopped = true) : processLine p st line = st := by
  simp [processLine, h]

/-- The `processLines` leaves a stopped state untouched. -/
theorem processLines_stopped (p : List Char → Option StreamMsg) (st : StreamState)
    (ls : List (List Char)) (h : st.stopped = true) : processLines p st ls = st := by
  induction ls with
  | nil => rfl
  | cons l ls ih =>
    show processLines p (processLine p st l) ls = st
    rw [processLine_stopped p st l h]
    exact ih

/-- The `processChunks` leaves a stopped state untouched. -/
theorem processChunks_stopped (p : List Char → Option StreamMsg) (st : StreamState)
    (chunks : List (List Char)) (h : st.stopped = true) :
    processChunks p st chunks = st := by
  induction chunks with
  | nil => rfl
  | cons c cs ih =>
    show processChunks p (processChunk p st c) cs = st
    rw [processChunk, if_pos h]
    exact ih

/-- The `processLine` neither reads nor writes the buffer. -/
theorem processLine_set_buffer (p : List Char → Option StreamMsg) (st : StreamState)
    (line : List Char) (b : List Char) :
    processLine p { st with buffer := b } line =
      { processLine p st line with buffer := b } := by
  cases hs : st.stopped
  · by_cases hg : trimTruthy line ∧ dataTag.isPrefixOf line
    · cases hp : p (line.drop 6) with
      | none => simp [processLine, hs, hg, hp]
      | some msg => cases msg <;> simp [processLine, hs, hg, hp]
    · simp only [processLine, hs, Bool.false_eq_true, if_false]
      rw [if_neg hg, if_neg hg, hs]
  · simp [processLine, hs]

/-- The `processLines` neither reads nor writes the buffer. -/
theorem processLines_set_buffer (p : List Char → Option StreamMsg) (st : StreamState)
    (ls : List (List Char)) (b : List Char) :
    processLines p { st with buffer := b } ls =
      { processLines p st ls with buffer := b } := by
  induction ls generalizing st with
  | nil => rfl
  | cons l ls ih =>
    show processLines p (processLine p { st with buffer := b } l) ls = _
    rw [processLine_set_buffer, ih]
    rfl

/-- An unstopped chunk step: process the complete lines of
`buffer ++ chunk` and retain the trailing segment as the new buffer. -/
theorem processChunk_eq (p : List Char → Option StreamMsg) (st : StreamState)
    (c : List Char) (h : st.stopped = false) :
    processChunk p st c =
      { processLines p st (splitNL (st.buffer ++ c)).dropLast with
        buffer := (splitNL (st.buffer ++ c)).getLastD [] } := by
  rw [processChunk, if_neg (by simp [h])]
  exact processLines_set_buffer ..

/-- The `processLines` over a concatenation is sequential processing. -/
theorem processLines_append (p : List Char → Option StreamMsg) (st : StreamState)
    (xs ys : List (List Char)) :
    processLines p st (xs ++ ys) = processLines p (processLines p st xs) ys := by
  simp [processLines, List.foldl_append]

/-- Chunk boundaries are invisible: feeding any sequence of chunks produces
the same network-visible state as processing the complete lines of the
concatenated text, and (while unstopped) the buffer holds exactly the
trailing incomplete line. -/
theorem processChunks_obs (p : List Char → Option StreamMsg) :
    ∀ (chunks : List (List Char)) (st : StreamState), '\n' ∉ st.buffer →
      (processChunks p st chunks).obs =
        (processLines p st (splitNL (st.buffer ++ chunks.flatten)).dropLast).obs ∧
      ((processChunks p st chunks).stopped = false →
        (processChunks p st chunks).buffer =
          (splitNL (st.buffer ++ chunks.flatten)).getLastD []) := by
  intro chunks
  induction chunks with
  | nil =>
    intro st h
    have hs : splitNL st.buffer = [st.buffer] := splitNL_no_newline _ h
    refine ⟨?_, ?_⟩
    · simp [processChunks, processLines, hs]
    · intro _
      simp [processChunks, hs]
  | cons c rest ih =>
    intro st hbuf
    cases hstop : st.stopped with
    | true =>
      rw [processChunks_stopped p st _ hstop, processLines_stopped p st _ hstop]
      exact ⟨rfl, fun hc => absurd hc (by simp [hstop])⟩
    | false =>
      have hchunk := processChunk_eq p st c hstop
      have hstep : processChunks p st (c :: rest) =
          processChunks p
            { processLines p st (splitNL (st.buffer ++ c)).dropLast with
              buffer := (splitNL (st.buffer ++ c)).getLastD [] } rest := by
        show processChunks p (processChunk p st c) rest = _
        rw [hchunk]
      have hBnl : '\n' ∉ (splitNL (st.buffer ++ c)).getLastD [] :=
        splitNL_getLastD_no_newline (st.buffer ++ c)
      have ihr := ih
        { processLines p st (splitNL (st.buffer ++ c)).dropLast with
          buffer := (splitNL (st.buffer ++ c)).getLastD [] } hBnl
      have hum : (c :: rest).flatten = c ++ rest.flatten := by simp
      have happ : splitNL (st.buffer ++ (c :: rest).flatten) =
          (splitNL (st.buffer ++ c)).dropLast ++
            splitNL ((splitNL (st.buffer ++ c)).getLastD [] ++ rest.flatten) := by
        rw [hum, ← List.append_assoc]
        exact splitNL_append (st.buffer ++ c) rest.flatten
      have hTd : (splitNL (st.buffer ++ (c :: rest).flatten)).dropLast =
          (splitNL (st.buffer ++ c)).dropLast ++
            (splitNL ((splitNL (st.buffer ++ c)).getLastD [] ++
              rest.flatten)).dropLast := by
        rw [happ, List.dropLast_append_of_ne_nil _ (splitNL_ne_nil _)]
      have hTl : (splitNL (st.buffer ++ (c :: rest).flatten)).getLastD [] =
          (splitNL ((splitNL (st.buffer ++ c)).getLastD [] ++
            rest.flatten)).getLastD [] := by
        rw [happ, List.getLastD_eq_getLast?,
          List.getLast?_append_of_ne_nil _ (splitNL_ne_nil _),
          ← List.getLastD_eq_getLast?]
      constructor
      · calc (processChunks p st (c :: rest)).obs
            = (processChunks p
                { processLines p st (splitNL (st.buffer ++ c)).dropLast with
                  buffer := (splitNL (st.buffer ++ c)).getLastD [] } rest).obs := by
              rw [hstep]
          _ = (processLines p
                { processLines p st (splitNL (st.buffer ++ c)).dropLast with
                  buffer := (splitNL (st.buffer ++ c)).getLastD [] }
                (splitNL ((splitNL (st.buffer ++ c)).getLastD [] ++
                  rest.flatten)).dropLast).obs := ihr.1
          _ = (processLines p
                (processLines p st (splitNL (st.buffer ++ c)).dropLast)
                (splitNL ((splitNL (st.buffer ++ c)).getLastD [] ++
                  rest.flatten)).dropLast).obs := by
              rw [processLines_set_buffer]
              rfl
          _ = (processLines p st
                (splitNL (st.buffer ++ (c :: rest).flatten)).dropLast).obs := by
              rw [hTd, processLines_append]
      · intro hstop2
        rw [hstep] at hstop2 ⊢
        rw [hTl]
        exact ihr.2 hstop2

/-- The `processLines` appends exactly the companies of the `progress` lines in
arrival order, up to the first terminating line. -/
theorem processLines_companies (p : List Char → Option StreamMsg) :
    ∀ (ls : List (List Char)) (st : StreamState), st.stopped = false →
      (processLines p st ls).companies = st.companies ++ collectCompanies p ls := by
  intro ls
  induction ls with
  | nil =>
    intro st h
    simp [processLines, collectCompanies]
  | cons line rest ih =>
    intro st h
    show (processLines p (processLine p st line) rest).companies = _
    by_cases hg : trimTruthy line ∧ dataTag.isPrefixOf line
    · cases hp : p (line.drop 6) with
      | none =>
        have he : processLine p st line = st := by simp [processLine, h, hg, hp]
        rw [he, ih st h]
        simp [collectCompanies, hg, hp]
      | some msg =>
        cases msg with
        | started =>
          have he : processLine p st line = st := by simp [processLine, h, hg, hp]
          rw [he, ih st h]
          simp [collectCompanies, hg, hp]
        | other =>
          have he : processLine p st line = st := by simp [processLine, h, hg, hp]
          rw [he, ih st h]
          simp [collectCompanies, hg, hp]
        | progress cc =>
          have he : processLine p st line =
              { st with companies := st.companies ++ [cc] } := by
            simp [processLine, h, hg, hp]
          rw [he, ih { st with companies := st.companies ++ [cc] } h]
          simp [collectCompanies, hg, hp]
        | completed =>
          have he : processLine p st line =
              { st with loading := false, stopped := true } := by
            simp [processLine, h, hg, hp]
          rw [he, processLines_stopped p _ rest rfl]
          simp [collectCompanies, hg, hp]
        | error e =>
          have he : processLine p st line =
              { st with error := some e, loading := false, stopped := true } := by
            simp [processLine, h, hg, hp]
          rw [he, processLines_stopped p _ rest rfl]
          simp [collectCompanies, hg, hp]
    · have he : processLine p st line = st := by
        simp only [processLine, h, Bool.false_eq_true, if_false]
        rw [if_neg hg]
      have hcol : collectCompanies p (line :: rest) = collectCompanies p rest := by
        rw [collectCompanies, if_neg hg]
      rw [he, ih st h, hcol]

/-- A line starting with `data: ` has a truthy `trim()`. -/
theorem trimTruthy_of_dataTag (line : List Char)
    (h : dataTag.isPrefixOf line = true) : trimTruthy line = true := by
  cases line with
  | nil => simp [dataTag, List.isPrefixOf] at h
  | cons c rest =>
    have hc : c = 'd' := by
      simp [dataTag, List.isPrefixOf] at h
      exact h.1.symm
    subst hc
    simp [trimTruthy, List.any_cons]

/-- C3: the NDJSON streaming consumer is correct for every sequence of
received chunks — the buffer retains the trailing incomplete line so that
chunk boundaries do not affect the network-visible outcome (which equals
processing the complete lines of the concatenated text); only lines with the
`data: ` tag are parsed; a `progress` line appends its company, `completed`
stops reading with `loading = false`, `error` stops reading with the error
message set, an unparsable line is skipped; and the companies arrive in
order. -/
theorem ndjson_stream_consumer :
    (∀ (p : List Char → Option StreamMsg) (chunks : List (List Char))
        (st : StreamState), '\n' ∉ st.buffer →
      (processChunks p st chunks).obs =
        (processLines p st (splitNL (st.buffer ++ chunks.flatten)).dropLast).obs ∧
      ((processChunks p st chunks).stopped = false →
        (processChunks p st chunks).buffer =
          (splitNL (st.buffer ++ chunks.flatten)).getLastD [])) ∧
    (∀ (p : List Char → Option StreamMsg) (st : StreamState) (line : List Char),
        st.stopped = false →
      (¬ (trimTruthy line = true ∧ dataTag.isPrefixOf line = true) →
        processLine p st line = st) ∧
      (dataTag.isPrefixOf line = true →
        ((∀ c, p (line.drop 6) = some (.progress c) →
            processLine p st line = { st with companies := st.companies ++ [c] }) ∧
          (p (line.drop 6) = some .completed →
            processLine p st line = { st with loading := false, stopped := true }) ∧
          (∀ e, p (line.drop 6) = some (.error e) →
            processLine p st line =
              { st with error := some e, loading := false, stopped := true }) ∧
          (p (line.drop 6) = none → processLine p st line = st)))) ∧
    (∀ (p : List Char → Option StreamMsg) (ls : List (List Char))
        (st : StreamState), st.stopped = false →
      (processLines p st ls).companies = st.companies ++ collectCompanies p ls) := by
  refine ⟨processChunks_obs, ?_, fun p ls st h => processLines_companies p ls st h⟩
  intro p st line h
  constructor
  · intro hg
    simp only [processLine, h, Bool.false_eq_true, if_false]
    rw [if_neg hg]
  · intro hpre
    have htr : trimTruthy line = true := trimTruthy_of_dataTag line hpre
    refine ⟨?_, ?_, ?_, ?_⟩
    · intro c hp
      simp [processLine, h, htr, hpre, hp]
    · intro hp
      simp [processLine, h, htr, hpre, hp]
    · intro e hp
      simp [processLine, h, htr, hpre, hp]
    · intro hp
      simp [processLine, h, htr, hpre, hp]

/-- C3 witness: a `data: ` line split across two chunks is reassembled and
dispatched exactly as if it had arrived whole. -/
theorem ndjson_stream_consumer_witness :
    ('\n' ∉ initialStreamState.buffer) ∧
    (processChunks wParse initialStreamState
        ["da".toList, "ta: 1\ndata: 2\n".toList]).obs =
      (processLines wParse initialStreamState
        (splitNL (initialStreamState.buffer ++
          (["da".toList, "ta: 1\ndata: 2\n".toList] :
            List (List Char)).flatten)).dropLast).obs :=
  ⟨by decide,
    (ndjson_stream_consumer.1 wParse ["da".toList, "ta: 1\ndata: 2\n".toList]
      initialStreamState (by decide)).1⟩

/-! ### Compounding lab lemmas -/

/-- After `i` completed months the monthly contribution has been bumped once
for every full block of 12 months. -/
theorem simRun_m (r bumpF : ℝ) (init : SimState) :
    ∀ i : ℕ, (simRun r bumpF init i).m = init.m * bumpF ^ (i / 12) := by
  intro i
  induction i with
  | zero => simp [simRun]
  | succ i ih =>
    simp only [simRun, simStep]
    by_cases h : (i + 1) % 12 = 0
    · rw [if_pos h, ih]
      have h12 : (i + 1) / 12 = i / 12 + 1 := by omega
      rw [h12, pow_succ, mul_assoc]
    · rw [if_neg h, ih]
      have h12 : (i + 1) / 12 = i / 12 := by omega
      rw [h12]

/-- The invested total after `k` months is the initial amount plus every
monthly contribution added so far. -/
theorem simRun_contrib (r bumpF : ℝ) (init : SimState) :
    ∀ k : ℕ, (simRun r bumpF init k).contrib =
      init.contrib + ∑ j ∈ Finset.range k, init.m * bumpF ^ (j / 12) := by
  intro k
  induction k with
  | zero => simp [simRun]
  | succ k ih =>
    simp only [simRun, simStep]
    rw [ih, Finset.sum_range_succ, simRun_m]
    ring

/-- One month of the loop: multiply by `1 + r`, then add the current monthly
contribution. -/
theorem simRun_value_succ (r bumpF : ℝ) (init : SimState) (i : ℕ) :
    (simRun r bumpF init (i + 1)).value =
      (simRun r bumpF init i).value * (1 + r) + init.m * bumpF ^ (i / 12) := by
  simp only [simRun, simStep]
  rw [simRun_m]

/-- C1: `simulateSeries` compounds monthly at rate
`(1 + cagrPct/100)^(1/12) - 1` over `max(1, ⌊years·12⌋)` months: the series
has exactly `months + 1` points starting at the initial lump sum; each month
multiplies the running value by `1 + r` and adds the current monthly
contribution, which is bumped by `1 + contribBump/100` after every 12th
month; `invested` is the initial amount plus all monthly contributions
added, and `growth = final - invested`. -/
theorem simulateSeries_spec (years cagrPct initial monthly contribBump : ℝ) :
    (simulateSeries years cagrPct initial monthly contribBump).data.length =
      simMonths years + 1 ∧
    (simulateSeries years cagrPct initial monthly contribBump).data.head? =
      some (0, initial, initial) ∧
    (∀ i : ℕ, i < simMonths years + 1 →
      (simulateSeries years cagrPct initial monthly contribBump).data[i]? =
        some (i,
          (simRun (monthlyRate cagrPct) (1 + contribBump / 100)
            (simInit initial monthly) i).value,
          (simRun (monthlyRate cagrPct) (1 + contribBump / 100)
            (simInit initial monthly) i).contrib)) ∧
    (∀ i : ℕ,
      (simRun (monthlyRate cagrPct) (1 + contribBump / 100)
          (simInit initial monthly) (i + 1)).value =
        (simRun (monthlyRate cagrPct) (1 + contribBump / 100)
            (simInit initial monthly) i).value * (1 + monthlyRate cagrPct) +
          contribOfMonth monthly contribBump (i + 1)) ∧
    (∀ i : ℕ,
      (simRun (monthlyRate cagrPct) (1 + contribBump / 100)
          (simInit initial monthly) (i + 1)).contrib =
        (simRun (monthlyRate cagrPct) (1 + contribBump / 100)
            (simInit initial monthly) i).contrib +
          contribOfMonth monthly contribBump (i + 1)) ∧
    (simulateSeries years cagrPct initial monthly contribBump).invested =
      initial + ∑ j ∈ Finset.range (simMonths years),
        contribOfMonth monthly contribBump (j + 1) ∧
    (simulateSeries years cagrPct initial monthly contribBump).final =
      (simRun (monthlyRate cagrPct) (1 + contribBump / 100)
        (simInit initial monthly) (simMonths years)).value ∧
    (simulateSeries years cagrPct initial monthly contribBump).growth =
      (simulateSeries years cagrPct initial monthly contribBump).final -
        (simulateSeries years cagrPct initial monthly contribBump).invested := by
  have hdata : ∀ i : ℕ, i < simMonths years + 1 →
      (simulateSeries years cagrPct initial monthly contribBump).data[i]? =
        some (i,
          (simRun (monthlyRate cagrPct) (1 + contribBump / 100)
            (simInit initial monthly) i).value,
          (simRun (monthlyRate cagrPct) (1 + contribBump / 100)
            (simInit initial monthly) i).contrib) := by
    intro i hi
    simp [simulateSeries, List.getElem?_map, List.getElem?_range hi]
  refine ⟨?_, ?_, hdata, ?_, ?_, ?_, ?_, ?_⟩
  · simp [simulateSeries]
  · rw [List.head?_eq_getElem?, hdata 0 (Nat.succ_pos _)]
    rfl
  · intro i
    rw [simRun_value_succ]
    simp [contribOfMonth, simInit]
  · intro i
    simp only [simRun, simStep]
    rw [simRun_m]
    simp [contribOfMonth, simInit]
  · show (simRun (monthlyRate cagrPct) (1 + contribBump / 100)
        (simInit initial monthly) (simMonths years)).contrib = _
    rw [simRun_contrib]
    simp [simInit, contribOfMonth]
  · rfl
  · rfl

/-- C1 witness: the first data point of a concrete simulation carries the
initial lump sum. -/
theorem simulateSeries_spec_witness :
    0 < simMonths 1 + 1 ∧
    (simulateSeries 1 0 100 10 0).data[0]? =
      some (0,
        (simRun (monthlyRate 0) (1 + 0 / 100) (simInit 100 10) 0).value,
        (simRun (monthlyRate 0) (1 + 0 / 100) (simInit 100 10) 0).contrib) :=
  ⟨Nat.succ_pos _, (simulateSeries_spec 1 0 100 10 0).2.2.1 0 (Nat.succ_pos _)⟩

end SmartWealth
